import Mathlib

/-!
Verification development for the Mapperatorinator job-supervision core
(`api_v2.py`).  Worker output lines are modelled as `List Char`, Python
floats as rationals, and the regex patterns of `parse_progress_from_output`
as direct backtracking-faithful matchers.
-/

namespace Mapper

/-- Characters matched by the regex class for whitespace (ASCII part). -/
def isSpaceCh (c : Char) : Bool :=
  c = ' ' || c = '\t' || c = '\n' || c = '\r' || c = '\x0b' || c = '\x0c'

/-- Characters matched by the regex digit class. -/
def isDigitCh (c : Char) : Bool :=
  '0' ≤ c && c ≤ '9'

def lowerCh (c : Char) : Char := c.toLower

/-- Model of the Python `str.lower` used on output lines (ASCII case fold). -/
def lowerStr (s : List Char) : List Char := s.map lowerCh

/-- Numeric value of a digit string, as `float(...)` yields for an integer literal. -/
def natV (ds : List Char) : ℕ :=
  ds.foldl (fun a c => 10 * a + (c.toNat - '0'.toNat)) 0

/-- `min(100.0, max(0.0, q))` from the source. -/
def clampPct (q : ℚ) : ℚ := min 100 (max 0 q)

/-- `re.search` tries each start position from the left; the first position
where the pattern matches wins. -/
def searchFrom (m : List Char → Option α) : List Char → Option α
  | [] => m []
  | c :: s =>
    match m (c :: s) with
    | some r => some r
    | none => searchFrom m s

/-- Tail of the full tqdm pattern after the second bar: matches the
regex piece for optional whitespace, then current-slash-total digits. -/
def tailFrac (s : List Char) : Option (List Char × List Char) :=
  let s1 := s.dropWhile isSpaceCh
  let cur := s1.takeWhile isDigitCh
  let s2 := s1.dropWhile isDigitCh
  if cur.isEmpty then none else
  match s2 with
  | '/' :: s3 =>
    let tot := s3.takeWhile isDigitCh
    if tot.isEmpty then none else some (cur, tot)
  | _ => none

/-- The lazy scan for the next bar character followed by `tailFrac`;
the dot of the pattern cannot cross a newline. -/
def lazyBar : List Char → Option (List Char × List Char)
  | [] => none
  | c :: s =>
    if c = '|' then
      match tailFrac s with
      | some r => some r
      | none => lazyBar s
    else if c = '\n' then none
    else lazyBar s

/-- First tqdm pattern (anchored): leading whitespace, digits, percent sign,
bar, lazy middle, bar, fraction.  Captures (display, current, total). -/
def matchTqdmFullAt (s : List Char) : Option (List Char × List Char × List Char) :=
  let s1 := s.dropWhile isSpaceCh
  let p := s1.takeWhile isDigitCh
  let s2 := s1.dropWhile isDigitCh
  if p.isEmpty then none else
  match s2 with
  | '%' :: '|' :: s3 =>
    match lazyBar s3 with
    | some r => some (p, r.1, r.2)
    | none => none
  | _ => none

/-- Second tqdm pattern (anchored): leading whitespace, digits, percent, bar. -/
def matchTqdmSimpleAt (s : List Char) : Option (List Char) :=
  let s1 := s.dropWhile isSpaceCh
  let p := s1.takeWhile isDigitCh
  let s2 := s1.dropWhile isDigitCh
  if p.isEmpty then none else
  match s2 with
  | '%' :: '|' :: _ => some p
  | _ => none

/-- Third tqdm pattern (unanchored, applied through `searchFrom`). -/
def matchTqdmMidAt (s : List Char) : Option (List Char × List Char × List Char) :=
  let p := s.takeWhile isDigitCh
  let s2 := s.dropWhile isDigitCh
  if p.isEmpty then none else
  match s2 with
  | '%' :: '|' :: s3 =>
    match lazyBar s3 with
    | some r => some (p, r.1, r.2)
    | none => none
  | _ => none

/-- Backup pattern: digits, percent, not followed by a bar. -/
def matchPctNoBarAt (s : List Char) : Option (List Char) :=
  let d := s.takeWhile isDigitCh
  let s1 := s.dropWhile isDigitCh
  if d.isEmpty then none else
  match s1 with
  | '%' :: t => if t.head? = some '|' then none else some d
  | _ => none

/-- Backup pattern: digits slash digits. -/
def matchFracAt (s : List Char) : Option (List Char × List Char) :=
  let d := s.takeWhile isDigitCh
  let s1 := s.dropWhile isDigitCh
  if d.isEmpty then none else
  match s1 with
  | '/' :: t =>
    let d2 := t.takeWhile isDigitCh
    if d2.isEmpty then none else some (d, d2)
  | _ => none

/-- Case-insensitive literal match; returns the remaining input.
The literal argument is given lowercase. -/
def stripCI : List Char → List Char → Option (List Char)
  | [], s => some s
  | _ :: _, [] => none
  | l :: ls, c :: cs => if lowerCh c = l then stripCI ls cs else none

/-- Value of an integer digit string with an optional fractional digit part,
as `float(...)` yields. -/
def ratOfParts (d : List Char) (f : Option (List Char)) : ℚ :=
  (natV d : ℚ) +
    match f with
    | none => 0
    | some fr => (natV fr : ℚ) / (10 : ℚ) ^ fr.length

/-- Number-percent piece: digits with an optional dot-digits part, a percent
sign, then a continuation check on the rest.  Mirrors the backtracking of the
greedy optional group: the fractional variant is tried first, and the
variant without it only applies when no dot follows the digits. -/
def matchNumPctThen (k : List Char → Bool) (s : List Char) : Option ℚ :=
  let d := s.takeWhile isDigitCh
  let s1 := s.dropWhile isDigitCh
  if d.isEmpty then none else
  match s1 with
  | '.' :: s2 =>
    let fr := s2.takeWhile isDigitCh
    let s3 := s2.dropWhile isDigitCh
    if fr.isEmpty then none else
    match s3 with
    | '%' :: t => if k t then some (ratOfParts d (some fr)) else none
    | _ => none
  | '%' :: t => if k t then some (ratOfParts d none) else none
  | _ => none

/-- Backup pattern: a literal progress marker followed by a number-percent. -/
def matchProgressAt (s : List Char) : Option ℚ :=
  match stripCI ("progress:".data) s with
  | none => none
  | some s1 => matchNumPctThen (fun _ => true) (s1.dropWhile isSpaceCh)

/-- Backup pattern: number-percent, whitespace, the literal word complete. -/
def matchCompleteAt (s : List Char) : Option ℚ :=
  matchNumPctThen (fun t => (stripCI ("complete".data) (t.dropWhile isSpaceCh)).isSome) s

/-- Backup pattern: step K of M. -/
def matchStepAt (s : List Char) : Option (List Char × List Char) :=
  match stripCI ("step".data) s with
  | none => none
  | some s1 =>
    if (s1.takeWhile isSpaceCh).isEmpty then none else
    let r1 := s1.dropWhile isSpaceCh
    let d1 := r1.takeWhile isDigitCh
    let r2 := r1.dropWhile isDigitCh
    if d1.isEmpty then none else
    if (r2.takeWhile isSpaceCh).isEmpty then none else
    let r3 := r2.dropWhile isSpaceCh
    match stripCI ("of".data) r3 with
    | none => none
    | some r4 =>
      if (r4.takeWhile isSpaceCh).isEmpty then none else
      let r5 := r4.dropWhile isSpaceCh
      let d2 := r5.takeWhile isDigitCh
      if d2.isEmpty then none else some (d1, d2)

/-- Lazy scan of the dot-star between a word and a digits-percent piece. -/
def lazyDigitsPct : List Char → Option (List Char)
  | [] => none
  | c :: s =>
    let d := (c :: s).takeWhile isDigitCh
    let r := (c :: s).dropWhile isDigitCh
    if !d.isEmpty && r.head? = some '%' then some d
    else if c = '\n' then none
    else lazyDigitsPct s

/-- Backup patterns of the shape word, lazy middle, digits-percent. -/
def matchWordPctAt (lit : List Char) (s : List Char) : Option (List Char) :=
  match stripCI lit s with
  | none => none
  | some s1 => lazyDigitsPct s1

/-- Three-group tqdm result: prefer the fraction when the total is positive,
fall back to the displayed percentage otherwise. -/
def fracOrDisplay (p cur tot : List Char) : ℚ :=
  if natV tot > 0 then clampPct ((natV cur : ℚ) / (natV tot : ℚ) * 100)
  else clampPct (natV p)

/-- Two-group fraction in the backup loop: with a zero total the loop body
does not return and control continues with the next pattern. -/
def fracVal (c t : List Char) : Option ℚ :=
  if natV t > 0 then some (clampPct ((natV c : ℚ) / (natV t : ℚ) * 100)) else none

def tryTqdmFull (l : List Char) : Option ℚ :=
  (matchTqdmFullAt l).map (fun r => fracOrDisplay r.1 r.2.1 r.2.2)

def tryTqdmSimple (l : List Char) : Option ℚ :=
  (matchTqdmSimpleAt l).map (fun p => clampPct (natV p))

def tryTqdmMid (l : List Char) : Option ℚ :=
  (searchFrom matchTqdmMidAt l).map (fun r => fracOrDisplay r.1 r.2.1 r.2.2)

def tryPctNoBar (l : List Char) : Option ℚ :=
  (searchFrom matchPctNoBarAt l).map (fun d => clampPct (natV d))

def tryFrac (l : List Char) : Option ℚ :=
  (searchFrom matchFracAt l).bind (fun r => fracVal r.1 r.2)

def tryProgressMark (l : List Char) : Option ℚ :=
  (searchFrom matchProgressAt l).map clampPct

def tryComplete (l : List Char) : Option ℚ :=
  (searchFrom matchCompleteAt l).map clampPct

def tryStep (l : List Char) : Option ℚ :=
  (searchFrom matchStepAt l).bind (fun r => fracVal r.1 r.2)

def tryProcessing (l : List Char) : Option ℚ :=
  (searchFrom (matchWordPctAt ("processing".data)) l).map (fun d => clampPct (natV d))

def tryGenerating (l : List Char) : Option ℚ :=
  (searchFrom (matchWordPctAt ("generating".data)) l).map (fun d => clampPct (natV d))

/-- `parse_progress_from_output` from the source: the tqdm patterns in order,
then the backup patterns in order; the first pattern that yields a value wins. -/
def parse_progress_from_output (line : List Char) : Option ℚ :=
  (tryTqdmFull line).orElse fun _ =>
  (tryTqdmSimple line).orElse fun _ =>
  (tryTqdmMid line).orElse fun _ =>
  (tryPctNoBar line).orElse fun _ =>
  (tryFrac line).orElse fun _ =>
  (tryProgressMark line).orElse fun _ =>
  (tryComplete line).orElse fun _ =>
  (tryStep line).orElse fun _ =>
  (tryProcessing line).orElse fun _ =>
  tryGenerating line

/-- Range part of a stage-table entry: either fixed bounds, or the current
progress for both bounds (the error keywords). -/
inductive StageRange where
  | fixed (s e : ℚ)
  | current
deriving DecidableEq, Repr

/-- The stage keyword table, in source (dict insertion) order. -/
def stage_keywords : List (List Char × String × StageRange) := [
  ("using cuda for inference".data, "initializing", .fixed 0 5),
  ("using mps for inference".data, "initializing", .fixed 0 5),
  ("using cpu for inference".data, "initializing", .fixed 0 5),
  ("random seed".data, "loading_model", .fixed 5 10),
  ("model loaded".data, "model_ready", .fixed 10 15),
  ("generating map".data, "generating_map", .fixed 15 85),
  ("generating timing".data, "generating_timing", .fixed 15 40),
  ("generating kiai".data, "generating_kiai", .fixed 40 60),
  ("generated beatmap saved".data, "saving", .fixed 85 95),
  ("generated .osz saved".data, "completed", .fixed 95 100),
  ("seq len".data, "refining_positions", .fixed 85 95),
  ("loading".data, "loading", .fixed 0 10),
  ("load".data, "loading", .fixed 0 10),
  ("initializing".data, "initializing", .fixed 0 5),
  ("preprocessing".data, "preprocessing", .fixed 5 15),
  ("processing".data, "processing", .fixed 10 50),
  ("inference".data, "inference", .fixed 30 80),
  ("generating".data, "generating", .fixed 40 85),
  ("postprocessing".data, "postprocessing", .fixed 85 95),
  ("saving".data, "saving", .fixed 95 100),
  ("export".data, "export", .fixed 95 100),
  ("complete".data, "completed", .fixed 100 100),
  ("finished".data, "completed", .fixed 100 100),
  ("done".data, "completed", .fixed 100 100),
  ("model".data, "loading", .fixed 0 10),
  ("tokenizer".data, "loading", .fixed 5 15),
  ("config".data, "loading", .fixed 0 10),
  ("checkpoint".data, "loading", .fixed 5 15),
  ("audio".data, "preprocessing", .fixed 10 25),
  ("spectrogram".data, "preprocessing", .fixed 15 30),
  ("feature".data, "preprocessing", .fixed 20 35),
  ("cuda".data, "initializing", .fixed 0 5),
  ("device".data, "initializing", .fixed 0 5),
  ("gpu".data, "initializing", .fixed 0 5),
  ("error".data, "error", .current),
  ("failed".data, "error", .current),
  ("exception".data, "error", .current),
  ("traceback".data, "error", .current)]

/-- Python substring containment, `needle in hay`. -/
def containsSub (hay needle : List Char) : Bool :=
  needle.isPrefixOf hay ||
    match hay with
    | [] => false
    | _ :: t => containsSub t needle

/-- The best-match scan over the keyword table: a contained keyword strictly
longer than the best so far replaces it. -/
def scanKeywords (hay : List Char) :
    List (List Char × String × StageRange) →
    Option (String × StageRange) × ℕ → Option (String × StageRange) × ℕ
  | [], acc => acc
  | (kw, v) :: rest, (best, blen) =>
    scanKeywords hay rest
      (if containsSub hay kw && decide (blen < kw.length) then (some v, kw.length) else (best, blen))

/-- Result record of the stage estimator. -/
structure StageInfo where
  progress : ℚ
  stage : String
  estimated : Bool
deriving DecidableEq, Repr

/-- Bounds of a range entry at the given current progress. -/
def rangeOf (r : StageRange) (cp : ℚ) : ℚ × ℚ :=
  match r with
  | .fixed s e => (s, e)
  | .current => (cp, cp)

/-- `estimate_progress_from_stage` from the source. -/
def estimate_progress_from_stage (line : List Char) (current_progress : ℚ) : Option StageInfo :=
  let hay := lowerStr line
  match (scanKeywords hay stage_keywords (none, 0)).1 with
  | none => none
  | some (stg, rng) =>
    let se := rangeOf rng current_progress
    if current_progress < se.1 then some ⟨se.1, stg, true⟩
    else if se.1 ≤ current_progress ∧ current_progress ≤ se.2 then some ⟨current_progress, stg, true⟩
    else some ⟨current_progress, stg, true⟩

/-- Per-job progress record (one entry of the job progress map). -/
structure ProgressState where
  progress : ℚ
  stage : String
  last_update : ℚ
  estimated : Bool
  completed_at : Option ℚ := none
deriving DecidableEq, Repr

def genStages : List String :=
  ["generating_map", "generating_timing", "generating_kiai", "inference", "generating"]

def loadStages : List String := ["loading", "initializing"]

/-- `update_job_progress` from the source, as a pure transition on the
progress record of one job.  `prior` is the entry in the in-memory map,
`cached` the cache lookup used when it is absent, `start_time` the job
metadata start time, `now` the current clock. -/
def update_job_progress (prior : Option ProgressState) (cached : Option ProgressState)
    (start_time : ℚ) (line : List Char) (now : ℚ) : ProgressState :=
  let st0 := match prior with
    | some s => s
    | none => cached.getD ⟨0, "initializing", now, false, none⟩
  let cp := st0.progress
  let cstage := st0.stage
  match parse_progress_from_output line with
  | some p =>
    let stg := match estimate_progress_from_stage line p with
      | some si => si.stage
      | none => st0.stage
    { st0 with progress := p, last_update := now, estimated := false, stage := stg }
  | none =>
    match estimate_progress_from_stage line cp with
    | some si =>
      { st0 with progress := si.progress, stage := si.stage, last_update := now,
                 estimated := si.estimated }
    | none =>
      let elapsed := now - st0.last_update
      if 5 < elapsed then
        let total_elapsed := now - start_time
        let time_based := min 90 (total_elapsed / 180 * 100)
        let inc :=
          if genStages.contains cstage then min 2 ((100 - cp) * (8 / 100))
          else if loadStages.contains cstage then min 5 ((30 - cp) * (2 / 10))
          else min 3 ((100 - cp) * (1 / 10))
        let newp := min time_based (min (cp + inc) 95)
        if cp < newp then
          { st0 with progress := newp, last_update := now, estimated := true }
        else st0
      else st0

/-- Finalization performed by the monitor thread once the process exits:
exit code zero forces progress 100 and stage completed, any other code
marks the stage failed; both set the completion time. -/
def monitor_finalize (ps : Option ProgressState) (rc : Int) (now : ℚ) : Option ProgressState :=
  match ps with
  | none => none
  | some p =>
    if rc = 0 then
      some { p with progress := 100, stage := "completed", completed_at := some now }
    else
      some { p with stage := "failed", completed_at := some now }

/-- Job metadata record (serializable part). -/
structure Metadata where
  audio_filename : String
  start_time : ℚ
deriving DecidableEq, Repr

/-- A supervised process handle, reduced to what the API reads from it:
the poll result, none while running, otherwise the exit code. -/
structure Proc where
  poll : Option Int
deriving DecidableEq, Repr

/-- The global in-memory maps guarded by the process lock. -/
structure SysState where
  active : List (String × Proc)
  job_progress : List (String × ProgressState)
  job_metadata : List (String × Metadata)
deriving DecidableEq, Repr

/-- Values stored in the external cache. -/
inductive CVal where
  | prog (p : ProgressState)
  | meta (m : Metadata)
  | files (fs : List String)
deriving DecidableEq, Repr

/-- Oracle for the external store: each operation either succeeds or fails
with a connectivity or serialization error (the exceptions the source
catches). -/
structure RedisModel where
  getR : String → Except Unit (Option CVal)
  setR : String → CVal → ℕ → Except Unit Unit
  delR : String → Except Unit ℕ
  existsR : String → Except Unit ℕ

/-- `cache_set`: false when the client is disabled or the store errors. -/
def cache_set (cl : Option RedisModel) (key : String) (v : CVal) (expire : ℕ := 3600) : Bool :=
  match cl with
  | none => false
  | some r =>
    match r.setR key v expire with
    | .ok _ => true
    | .error _ => false

/-- `cache_get`: none when the client is disabled, the store errors, or
the key is absent. -/
def cache_get (cl : Option RedisModel) (key : String) : Option CVal :=
  match cl with
  | none => none
  | some r =>
    match r.getR key with
    | .error _ => none
    | .ok none => none
    | .ok (some v) => some v

/-- `cache_delete`: false when the client is disabled or the store errors. -/
def cache_delete (cl : Option RedisModel) (key : String) : Bool :=
  match cl with
  | none => false
  | some r =>
    match r.delR key with
    | .ok _ => true
    | .error _ => false

/-- `cache_exists`: false when the client is disabled or the store errors. -/
def cache_exists (cl : Option RedisModel) (key : String) : Bool :=
  match cl with
  | none => false
  | some r =>
    match r.existsR key with
    | .ok n => decide (0 < n)
    | .error _ => false

def get_cached_job_progress (cl : Option RedisModel) (jid : String) : Option ProgressState :=
  match cache_get cl ("job_progress:" ++ jid) with
  | some (.prog p) => some p
  | _ => none

def get_cached_job_metadata (cl : Option RedisModel) (jid : String) : Option Metadata :=
  match cache_get cl ("job_metadata:" ++ jid) with
  | some (.meta m) => some m
  | _ => none

/-- Response of the status endpoint. -/
structure JobStatus where
  job_id : String
  status : String
  progress : ℚ
  output_files : Option (List String)
  error : Option String
deriving DecidableEq, Repr

/-- Response of the progress endpoint. -/
structure ProgressResponse where
  job_id : String
  progress : ℚ
  stage : String
  estimated : Bool
  last_update : ℚ
  status : String
deriving DecidableEq, Repr

/-- An HTTP-level outcome: a value or an error status code. -/
inductive HttpResult (α : Type) where
  | ok (val : α)
  | httpError (code : ℕ)
deriving DecidableEq, Repr

/-- `get_status` from the source.  The result is an `Option`: `none` models
the handler never producing a response, which happens in the branch for an
exited-zero process still in the active map, where the body re-acquires the
non-reentrant process lock it already holds and blocks forever.  `files` is
the filesystem oracle for `find_output_files`. -/
def get_status (st : SysState) (cl : Option RedisModel) (files : List String)
    (jid : String) : Option (HttpResult JobStatus) :=
  let inMem := (st.active.lookup jid).isSome || (st.job_progress.lookup jid).isSome
  let restoredProg := if inMem then none else get_cached_job_progress cl jid
  let restoredMeta := if inMem then none else get_cached_job_metadata cl jid
  if !inMem && restoredProg.isNone && restoredMeta.isNone then
    some (.httpError 404)
  else
    let pInfo := (st.job_progress.lookup jid).orElse fun _ => restoredProg
    let cp := (pInfo.map ProgressState.progress).getD 0
    match st.active.lookup jid with
    | some proc =>
      match proc.poll with
      | none => some (.ok ⟨jid, "running", cp, none, none⟩)
      | some 0 => none
      | some rc => some (.ok ⟨jid, "failed", cp, none, some (toString rc)⟩)
    | none =>
      if !files.isEmpty then some (.ok ⟨jid, "completed", 100, some files, none⟩)
      else
        let finalp := if 100 ≤ cp then (100 : ℚ) else cp
        if 100 ≤ finalp then some (.ok ⟨jid, "completed", finalp, none, none⟩)
        else some (.ok ⟨jid, "failed", finalp, none, some "output files not found"⟩)

/-- `get_progress` from the source.  `now` models the clock default used
for a missing last-update value. -/
def get_progress (st : SysState) (cl : Option RedisModel) (jid : String)
    (now : ℚ) : HttpResult ProgressResponse :=
  let inMem := (st.active.lookup jid).isSome || (st.job_progress.lookup jid).isSome
  let restored := if inMem then none else get_cached_job_progress cl jid
  if !inMem && restored.isNone then .httpError 404
  else
    let pInfo := (st.job_progress.lookup jid).orElse fun _ => restored
    let status :=
      match st.active.lookup jid with
      | some proc =>
        match proc.poll with
        | none => "running"
        | some 0 => "completed"
        | some _ => "failed"
      | none =>
        if (pInfo.map ProgressState.progress).getD 0 = 100 then "completed" else "unknown"
    .ok ⟨jid, (pInfo.map ProgressState.progress).getD 0,
         (pInfo.map ProgressState.stage).getD "unknown",
         (pInfo.map ProgressState.estimated).getD true,
         (pInfo.map ProgressState.last_update).getD now, status⟩

/-- Outcome of the cancel endpoint. -/
inductive CancelResult where
  | notFound
  | alreadyFinished
  | cancelled (killed : Bool)
deriving DecidableEq, Repr

/-- `cancel_job` from the source: unknown to the active map gives 404;
an exited process gives already-finished without any mutation; otherwise
the process is terminated (killed after the grace period when it does not
exit) and its handle removed from the active map. -/
def cancel_job (st : SysState) (jid : String) (exitsInGrace : Bool) :
    CancelResult × SysState :=
  match st.active.lookup jid with
  | none => (.notFound, st)
  | some proc =>
    if proc.poll.isSome then (.alreadyFinished, st)
    else (.cancelled (!exitsInGrace),
          { st with active := st.active.filter fun kv => kv.1 != jid })

/-- Checks that a keyword starts with a non-whitespace character. -/
def headNonSpace (l : List Char) : Bool :=
  match l with
  | [] => false
  | c :: _ => !isSpaceCh c

/-! ### Helper lemmas -/

theorem exists_ok_chain {α : Type} {c1 c2 : Prop} [Decidable c1] [Decidable c2]
    (a b c : α) :
    ∃ js, (if c1 then some (HttpResult.ok a)
           else if c2 then some (HttpResult.ok b)
           else some (HttpResult.ok c)) = some (HttpResult.ok js) := by
  by_cases h1 : c1
  · exact ⟨a, by simp [h1]⟩
  · by_cases h2 : c2
    · exact ⟨b, by simp [h1, h2]⟩
    · exact ⟨c, by simp [h1, h2]⟩

theorem digit_not_space (c : Char) (h : isDigitCh c = true) : isSpaceCh c = false := by
  by_contra hs
  have hs2 : isSpaceCh c = true := by
    cases h2 : isSpaceCh c
    · exact absurd h2 hs
    · rfl
  simp only [isSpaceCh, Bool.or_eq_true, decide_eq_true_eq] at hs2
  rcases hs2 with (((((rfl | rfl) | rfl) | rfl) | rfl) | rfl) <;> simp [isDigitCh] at h

theorem dropWhile_append_all (q : Char → Bool) (l1 l2 : List Char)
    (h : l1.all q = true) : (l1 ++ l2).dropWhile q = l2.dropWhile q := by
  induction l1 with
  | nil => rfl
  | cons a t ih =>
    simp only [List.all_cons, Bool.and_eq_true] at h
    simpa [List.dropWhile, h.1] using ih h.2

theorem takeWhile_append_all (q : Char → Bool) (l1 l2 : List Char)
    (h : l1.all q = true) : (l1 ++ l2).takeWhile q = l1 ++ l2.takeWhile q := by
  induction l1 with
  | nil => rfl
  | cons a t ih =>
    simp only [List.all_cons, Bool.and_eq_true] at h
    simpa [List.takeWhile, h.1] using ih h.2

theorem dropWhile_cons_neg (q : Char → Bool) (a : Char) (l : List Char)
    (h : q a = false) : (a :: l).dropWhile q = a :: l := by
  simp [List.dropWhile, h]

theorem takeWhile_cons_neg (q : Char → Bool) (a : Char) (l : List Char)
    (h : q a = false) : (a :: l).takeWhile q = [] := by
  simp [List.takeWhile, h]

/-- The update performed when a structured parse succeeds. -/
theorem update_of_parse_some (st : ProgressState) (cached : Option ProgressState)
    (t now v : ℚ) (line : List Char)
    (h : parse_progress_from_output line = some v) :
    update_job_progress (some st) cached t line now =
      { st with progress := v, last_update := now, estimated := false,
                stage := match estimate_progress_from_stage line v with
                  | some si => si.stage
                  | none => st.stage } := by
  simp only [update_job_progress, h]

/-! ### C5 -/

/-- C5: whenever `parse_progress_from_output` returns a value, that value is
stored as the new progress with `estimated = false`; the stage-keyword
fallback can then only relabel the stage, never pick the number. -/
theorem structured_extraction_wins (st : ProgressState) (cached : Option ProgressState)
    (t now v : ℚ) (line : List Char)
    (h : parse_progress_from_output line = some v) :
    (update_job_progress (some st) cached t line now).progress = v ∧
    (update_job_progress (some st) cached t line now).estimated = false := by
  rw [update_of_parse_some st cached t now v line h]
  exact ⟨rfl, rfl⟩

/-- Witness for C5 at a concrete structured line. -/
theorem structured_extraction_wins_witness :
    (update_job_progress (some ⟨10, "x", 0, true, none⟩) none 0
        ("Processing 75%".data) 3).progress = 75 ∧
    (update_job_progress (some ⟨10, "x", 0, true, none⟩) none 0
        ("Processing 75%".data) 3).estimated = false :=
  structured_extraction_wins ⟨10, "x", 0, true, none⟩ none 0 3 75
    ("Processing 75%".data) (by decide)

/-! ### C9 -/

/-- C9: for a job id present in the progress map but absent from the active
map, the progress endpoint reports status completed exactly when the stored
progress is 100, and otherwise the string unknown, which lies outside the
documented status set. -/
theorem inactive_progress_status (st : SysState) (cl : Option RedisModel)
    (jid : String) (now : ℚ) (pi : ProgressState)
    (ha : st.active.lookup jid = none)
    (hp : st.job_progress.lookup jid = some pi) :
    ∃ resp, get_progress st cl jid now = .ok resp ∧
      (resp.status = "completed" ↔ pi.progress = 100) ∧
      (pi.progress ≠ 100 → resp.status = "unknown") ∧
      "unknown" ∉ ["running", "completed", "failed", "cancelled"] := by
  refine ⟨⟨jid, pi.progress, pi.stage, pi.estimated, pi.last_update,
      if pi.progress = 100 then "completed" else "unknown"⟩, ?_, ?_, ?_, by decide⟩
  · simp [get_progress, ha, hp, Option.orElse]
  · by_cases h : pi.progress = 100 <;> simp [h]
  · intro h; simp [h]

/-- Witness for C9 at a concrete state with progress 40. -/
theorem inactive_progress_status_witness :
    ∃ resp,
      get_progress ⟨[], [("j", ⟨40, "generating", 7, true, none⟩)], []⟩ none "j" 9 =
        .ok resp ∧
      (resp.status = "completed" ↔ (40 : ℚ) = 100) ∧
      ((40 : ℚ) ≠ 100 → resp.status = "unknown") ∧
      "unknown" ∉ ["running", "completed", "failed", "cancelled"] :=
  inactive_progress_status ⟨[], [("j", ⟨40, "generating", 7, true, none⟩)], []⟩
    none "j" 9 ⟨40, "generating", 7, true, none⟩ rfl rfl

/-! ### C10 -/

theorem lookup_filter_ne_self (l : List (String × Proc)) (k : String) :
    (l.filter fun kv => kv.1 != k).lookup k = none := by
  induction l with
  | nil => rfl
  | cons h t ih =>
    by_cases hk : h.1 = k
    · have hb : (h.1 != k) = false := by simp [bne, hk]
      simp [List.filter_cons, hb, ih]
    · have hb : (h.1 != k) = true := by simp [bne, hk]
      have hkb : (k == h.1) = false := by
        simp only [beq_eq_false_iff_ne, ne_eq]
        exact fun he => hk he.symm
      simp [List.filter_cons, hb, List.lookup, hkb, ih]

/-- C10: a successful cancel removes the process handle from the active map,
so an immediately repeated cancel of the same job reports not-found. -/
theorem cancel_not_idempotent (st : SysState) (jid : String) (g g2 : Bool) (p : Proc)
    (ha : st.active.lookup jid = some p) (hrun : p.poll = none) :
    (cancel_job st jid g).1 = .cancelled (!g) ∧
    (cancel_job st jid g).2.active.lookup jid = none ∧
    (cancel_job (cancel_job st jid g).2 jid g2).1 = .notFound := by
  have hdone : (st.active.filter fun kv => kv.1 != jid).lookup jid = none :=
    lookup_filter_ne_self st.active jid
  constructor
  · simp [cancel_job, ha, hrun]
  constructor
  · simp [cancel_job, ha, hrun, hdone]
  · simp [cancel_job, ha, hrun, hdone]

/-- Witness for C10 on a one-job state with a running process. -/
theorem cancel_not_idempotent_witness :
    (cancel_job ⟨[("j", ⟨none⟩)], [], []⟩ "j" true).1 = .cancelled false ∧
    (cancel_job ⟨[("j", ⟨none⟩)], [], []⟩ "j" true).2.active.lookup "j" = none ∧
    (cancel_job (cancel_job ⟨[("j", ⟨none⟩)], [], []⟩ "j" true).2 "j" true).1 =
      .notFound :=
  cancel_not_idempotent ⟨[("j", ⟨none⟩)], [], []⟩ "j" true true ⟨none⟩ rfl rfl

/-! ### C6 -/

/-- Counterexample to C6 as stated: a job whose process has already exited
and whose record says stage completed, but whose handle is no longer in the
active map, is answered with not-found rather than already-finished. -/
theorem cancel_terminal_notfound_cex :
    ((⟨[], [("j", ⟨100, "completed", 0, false, some 50⟩)], []⟩ :
        SysState).job_progress.lookup "j").map ProgressState.stage = some "completed" ∧
    cancel_job ⟨[], [("j", ⟨100, "completed", 0, false, some 50⟩)], []⟩ "j" true =
      (.notFound, ⟨[], [("j", ⟨100, "completed", 0, false, some 50⟩)], []⟩) ∧
    CancelResult.notFound ≠ CancelResult.alreadyFinished := by
  refine ⟨rfl, rfl, by decide⟩

/-- C6 amended: cancel answers not-found for ids absent from the active map
(in particular all unknown ids), and already-finished, with no state change,
for jobs still in the active map whose process has exited. -/
theorem cancel_guards (st : SysState) (jid : String) (g : Bool) :
    (st.active.lookup jid = none → cancel_job st jid g = (.notFound, st)) ∧
    (∀ p, st.active.lookup jid = some p → p.poll.isSome = true →
      cancel_job st jid g = (.alreadyFinished, st)) := by
  constructor
  · intro h; simp [cancel_job, h]
  · intro p hp hfin; simp [cancel_job, hp, hfin]

/-- Witness for C6 (amended) on concrete states for both guard branches. -/
theorem cancel_guards_witness :
    cancel_job ⟨[("k", ⟨some 0⟩)], [], []⟩ "j" true =
      (.notFound, ⟨[("k", ⟨some 0⟩)], [], []⟩) ∧
    cancel_job ⟨[("k", ⟨some 0⟩)], [], []⟩ "k" true =
      (.alreadyFinished, ⟨[("k", ⟨some 0⟩)], [], []⟩) :=
  ⟨(cancel_guards ⟨[("k", ⟨some 0⟩)], [], []⟩ "j" true).1 (by decide),
   (cancel_guards ⟨[("k", ⟨some 0⟩)], [], []⟩ "k" true).2 ⟨some 0⟩ (by decide) rfl⟩

/-! ### C2 -/

/-- C2 (code bug): the monitor does set progress 100 and stage completed on
exit code zero, but a status query for a job still in the active map whose
process exited with code zero produces no response: the handler, already
holding the non-reentrant process lock, re-acquires it and blocks forever. -/
theorem exit_zero_status_deadlock (ps : ProgressState) (now : ℚ)
    (st : SysState) (cl : Option RedisModel) (files : List String)
    (jid : String) (p : Proc)
    (ha : st.active.lookup jid = some p) (h0 : p.poll = some 0) :
    monitor_finalize (some ps) 0 now =
      some { ps with progress := 100, stage := "completed", completed_at := some now } ∧
    get_status st cl files jid = none := by
  constructor
  · simp [monitor_finalize]
  · simp [get_status, ha, h0]

/-- Witness for C2 at a concrete one-job state with exit code zero. -/
theorem exit_zero_status_deadlock_witness :
    monitor_finalize (some ⟨80, "saving", 3, true, none⟩) 0 9 =
      some ⟨100, "completed", 3, true, some 9⟩ ∧
    get_status ⟨[("j", ⟨some 0⟩)], [("j", ⟨80, "saving", 3, true, none⟩)], []⟩
        none ["out.osz"] "j" = none :=
  exit_zero_status_deadlock ⟨80, "saving", 3, true, none⟩ 9
    ⟨[("j", ⟨some 0⟩)], [("j", ⟨80, "saving", 3, true, none⟩)], []⟩
    none ["out.osz"] "j" ⟨some 0⟩ rfl rfl

/-! ### C7 -/

/-- C7: every cache operation returns the miss or no-op result, rather than
an exception outcome, both when the client is disabled and when the external
store errors; and status and progress queries answer from memory alone with
the cache disabled (the cancel path never consults the cache at all). -/
theorem cache_fails_soft (k : String) (v : CVal) (e : ℕ) (r : RedisModel)
    (st : SysState) (files : List String) (jid : String) (now : ℚ) (pi : ProgressState)
    (hget : r.getR k = .error ()) (hset : r.setR k v e = .error ())
    (hdel : r.delR k = .error ()) (hex : r.existsR k = .error ())
    (ha : st.active.lookup jid = none)
    (hp : st.job_progress.lookup jid = some pi) :
    cache_set none k v e = false ∧ cache_get none k = none ∧
    cache_delete none k = false ∧ cache_exists none k = false ∧
    cache_set (some r) k v e = false ∧ cache_get (some r) k = none ∧
    cache_delete (some r) k = false ∧ cache_exists (some r) k = false ∧
    (∃ js, get_status st none files jid = some (.ok js)) ∧
    (∃ resp, get_progress st none jid now = .ok resp) := by
  refine ⟨rfl, rfl, rfl, rfl, ?_, ?_, ?_, ?_, ?_, ?_⟩
  · simp [cache_set, hset]
  · simp [cache_get, hget]
  · simp [cache_delete, hdel]
  · simp [cache_exists, hex]
  · simp only [get_status, ha, hp, Option.isSome_some, Bool.or_true, Bool.not_true,
      Bool.false_and, Bool.false_eq_true, if_false, Option.isSome_none]
    exact exists_ok_chain _ _ _
  · simp [get_progress, ha, hp, Option.orElse]

/-- Witness for C7 with an always-erroring store model and a one-job state. -/
theorem cache_fails_soft_witness :
    cache_set none "job_progress:j" (.files []) 3600 = false ∧
    cache_get none "job_progress:j" = none ∧
    cache_delete none "job_progress:j" = false ∧
    cache_exists none "job_progress:j" = false ∧
    cache_set (some ⟨fun _ => .error (), fun _ _ _ => .error (), fun _ => .error (),
        fun _ => .error ()⟩) "job_progress:j" (.files []) 3600 = false ∧
    cache_get (some ⟨fun _ => .error (), fun _ _ _ => .error (), fun _ => .error (),
        fun _ => .error ()⟩) "job_progress:j" = none ∧
    cache_delete (some ⟨fun _ => .error (), fun _ _ _ => .error (), fun _ => .error (),
        fun _ => .error ()⟩) "job_progress:j" = false ∧
    cache_exists (some ⟨fun _ => .error (), fun _ _ _ => .error (), fun _ => .error (),
        fun _ => .error ()⟩) "job_progress:j" = false ∧
    (∃ js, get_status ⟨[], [("j", ⟨40, "generating", 7, true, none⟩)], []⟩
        none [] "j" = some (.ok js)) ∧
    (∃ resp, get_progress ⟨[], [("j", ⟨40, "generating", 7, true, none⟩)], []⟩
        none "j" 9 = .ok resp) :=
  cache_fails_soft "job_progress:j" (.files []) 3600
    ⟨fun _ => .error (), fun _ _ _ => .error (), fun _ => .error (), fun _ => .error ()⟩
    ⟨[], [("j", ⟨40, "generating", 7, true, none⟩)], []⟩ [] "j" 9
    ⟨40, "generating", 7, true, none⟩ rfl rfl rfl rfl rfl rfl

/-! ### C1 -/

/-- Any successful stage estimate carries a progress at least the prior one. -/
theorem le_ite_progress (st : ProgressState) (n now : ℚ) :
    st.progress ≤ (if st.progress < n then
      { st with progress := n, last_update := now, estimated := true }
    else st).progress := by
  by_cases h : st.progress < n
  · simpa [h] using le_of_lt h
  · simp [h]

theorem estimate_progress_ge (line : List Char) (cp : ℚ) (si : StageInfo)
    (h : estimate_progress_from_stage line cp = some si) : cp ≤ si.progress := by
  unfold estimate_progress_from_stage at h
  dsimp only at h
  split at h
  · simp at h
  · split at h
    · rename_i hlt
      cases h
      exact le_of_lt hlt
    · split at h <;> (cases h; exact le_refl _)

/-- Counterexample to C1 as stated: with prior progress 50 and a running
job, the tqdm restart line drops the recorded progress to 0. -/
theorem progress_decreases_cex :
    (update_job_progress (some ⟨50, "generating", 0, false, none⟩) none 0
        ("  0%|".data) 1).progress = 0 ∧
    ¬((50 : ℚ) ≤ (update_job_progress (some ⟨50, "generating", 0, false, none⟩)
        none 0 ("  0%|".data) 1).progress) := by
  constructor
  · decide
  · decide

/-- C1 amended: over updates in which structured extraction finds nothing,
progress is non-decreasing; a structured parse instead overwrites progress
with the parsed value, which can be lower than the prior value. -/
theorem unstructured_update_monotone (st : ProgressState) (cached : Option ProgressState)
    (t now : ℚ) (line : List Char)
    (h : parse_progress_from_output line = none) :
    st.progress ≤ (update_job_progress (some st) cached t line now).progress := by
  simp only [update_job_progress, h]
  cases he : estimate_progress_from_stage line st.progress with
  | some si =>
    simpa using estimate_progress_ge line st.progress si he
  | none =>
    simp only
    by_cases hel : 5 < now - st.last_update
    · rw [if_pos hel]
      exact le_ite_progress st _ now
    · rw [if_neg hel]

/-- Witness for C1 (amended) on a line with no structured value. -/
theorem unstructured_update_monotone_witness :
    (10 : ℚ) ≤ (update_job_progress (some ⟨10, "x", 0, true, none⟩) none 0
        ("Generating timing points".data) 3).progress :=
  unstructured_update_monotone ⟨10, "x", 0, true, none⟩ none 0 3
    ("Generating timing points".data) (by decide)

/-! ### C4 -/

theorem scanKeywords_acc_le (hay : List Char)
    (tbl : List (List Char × String × StageRange))
    (acc : Option (String × StageRange) × ℕ) :
    acc.2 ≤ (scanKeywords hay tbl acc).2 := by
  induction tbl generalizing acc with
  | nil => exact le_refl _
  | cons e rest ih =>
    obtain ⟨kw, v⟩ := e
    obtain ⟨best, blen⟩ := acc
    simp only [scanKeywords]
    split
    · rename_i hcond
      simp only [Bool.and_eq_true, decide_eq_true_eq] at hcond
      exact le_trans (le_of_lt hcond.2) (ih (some v, kw.length))
    · exact ih (best, blen)

theorem scanKeywords_maxlen (hay : List Char)
    (tbl : List (List Char × String × StageRange))
    (acc : Option (String × StageRange) × ℕ)
    (kw : List Char) (v : String × StageRange)
    (hmem : (kw, v) ∈ tbl) (hc : containsSub hay kw = true) :
    kw.length ≤ (scanKeywords hay tbl acc).2 := by
  induction tbl generalizing acc with
  | nil => cases hmem
  | cons e rest ih =>
    obtain ⟨kw2, v2⟩ := e
    obtain ⟨best, blen⟩ := acc
    rcases List.mem_cons.mp hmem with heq | htail
    · obtain ⟨rfl, rfl⟩ := Prod.mk.injEq .. ▸ heq
      simp only [scanKeywords, hc, Bool.true_and]
      by_cases hlen : blen < kw.length
      · simpa [hlen] using scanKeywords_acc_le hay rest (some v, kw.length)
      · have hle : kw.length ≤ blen := le_of_not_lt hlen
        simpa [hlen] using le_trans hle (scanKeywords_acc_le hay rest (best, blen))
    · simp only [scanKeywords]
      split
      · exact ih _ htail
      · exact ih _ htail

theorem scanKeywords_sound (hay : List Char)
    (tbl : List (List Char × String × StageRange))
    (acc : Option (String × StageRange) × ℕ) :
    scanKeywords hay tbl acc = acc ∨
    ∃ kw v, (kw, v) ∈ tbl ∧ containsSub hay kw = true ∧
      scanKeywords hay tbl acc = (some v, kw.length) := by
  induction tbl generalizing acc with
  | nil => exact Or.inl rfl
  | cons e rest ih =>
    obtain ⟨kw2, v2⟩ := e
    obtain ⟨best, blen⟩ := acc
    simp only [scanKeywords]
    split
    · rename_i hcond
      simp only [Bool.and_eq_true, decide_eq_true_eq] at hcond
      rcases ih (some v2, kw2.length) with heq | ⟨kw3, v3, hmem3, hc3, heq3⟩
      · exact Or.inr ⟨kw2, v2, List.mem_cons_self .., hcond.1, heq⟩
      · exact Or.inr ⟨kw3, v3, List.mem_cons_of_mem _ hmem3, hc3, heq3⟩
    · rcases ih (best, blen) with heq | ⟨kw3, v3, hmem3, hc3, heq3⟩
      · exact Or.inl heq
      · exact Or.inr ⟨kw3, v3, List.mem_cons_of_mem _ hmem3, hc3, heq3⟩

/-- C4: a successful stage estimate is produced by a contained keyword of
maximal length in the table; it is marked estimated, its stage is that
entry's stage, its progress jumps to the range start when the prior progress
lay below it and otherwise keeps the prior progress, and in particular it
never moves progress backward. -/
theorem stage_longest_keyword_wins (line : List Char) (cp : ℚ) (r : StageInfo)
    (h : estimate_progress_from_stage line cp = some r) :
    r.estimated = true ∧ cp ≤ r.progress ∧
    ∃ kw stg rng, (kw, stg, rng) ∈ stage_keywords ∧
      containsSub (lowerStr line) kw = true ∧
      r.stage = stg ∧
      r.progress = (if cp < (rangeOf rng cp).1 then (rangeOf rng cp).1 else cp) ∧
      ∀ kw2 v2, (kw2, v2) ∈ stage_keywords → containsSub (lowerStr line) kw2 = true →
        kw2.length ≤ kw.length := by
  have hge := estimate_progress_ge line cp r h
  unfold estimate_progress_from_stage at h
  dsimp only at h
  rcases scanKeywords_sound (lowerStr line) stage_keywords (none, 0) with hid | hfound
  · rw [hid] at h
    simp at h
  · obtain ⟨kw, v, hmem, hc, heq⟩ := hfound
    rw [heq] at h
    obtain ⟨stg, rng⟩ := v
    have hmax : ∀ kw2 v2, (kw2, v2) ∈ stage_keywords →
        containsSub (lowerStr line) kw2 = true → kw2.length ≤ kw.length := by
      intro kw2 v2 hm2 hc2
      have := scanKeywords_maxlen (lowerStr line) stage_keywords (none, 0) kw2 v2 hm2 hc2
      rw [heq] at this
      exact this
    simp only at h
    refine ⟨?_, hge, kw, stg, rng, hmem, hc, ?_, ?_, hmax⟩
    · split at h <;> [skip; split at h] <;> (cases h; rfl)
    · split at h <;> [skip; split at h] <;> (cases h; rfl)
    · by_cases hlt : cp < (rangeOf rng cp).1
      · rw [if_pos hlt]
        rw [if_pos hlt] at h
        cases h; rfl
      · rw [if_neg hlt]
        rw [if_neg hlt] at h
        split at h <;> (cases h; rfl)

/-- Witness for C4: the example line at prior progress 10 resolves through
the 17-character keyword to stage generating_timing at progress 15. -/
theorem stage_longest_keyword_wins_witness :
    estimate_progress_from_stage ("Generating timing points".data) 10 =
      some ⟨15, "generating_timing", true⟩ ∧
    ((⟨15, "generating_timing", true⟩ : StageInfo).estimated = true ∧
      (10 : ℚ) ≤ (⟨15, "generating_timing", true⟩ : StageInfo).progress ∧
      ∃ kw stg rng, (kw, stg, rng) ∈ stage_keywords ∧
        containsSub (lowerStr ("Generating timing points".data)) kw = true ∧
        (⟨15, "generating_timing", true⟩ : StageInfo).stage = stg ∧
        (⟨15, "generating_timing", true⟩ : StageInfo).progress =
          (if (10 : ℚ) < (rangeOf rng 10).1 then (rangeOf rng 10).1 else 10) ∧
        ∀ kw2 v2, (kw2, v2) ∈ stage_keywords →
          containsSub (lowerStr ("Generating timing points".data)) kw2 = true →
          kw2.length ≤ kw.length) :=
  ⟨by decide, stage_longest_keyword_wins ("Generating timing points".data) 10
      ⟨15, "generating_timing", true⟩ (by decide)⟩

/-! ### C8 -/

theorem space_not_digit (c : Char) (h : isSpaceCh c = true) : isDigitCh c = false := by
  cases hd : isDigitCh c
  · rfl
  · rw [digit_not_space c hd] at h
    exact Bool.noConfusion h

theorem ws_lowerCh (c : Char) (h : isSpaceCh c = true) : lowerCh c = c := by
  simp only [isSpaceCh, Bool.or_eq_true, decide_eq_true_eq] at h
  rcases h with (((((rfl | rfl) | rfl) | rfl) | rfl) | rfl) <;> decide

theorem lowerStr_ws (s : List Char) (h : s.all isSpaceCh = true) :
    (lowerStr s).all isSpaceCh = true := by
  induction s with
  | nil => rfl
  | cons c t ih =>
    simp only [List.all_cons, Bool.and_eq_true] at h
    simp only [lowerStr, List.map_cons, List.all_cons, Bool.and_eq_true]
    exact ⟨by rw [ws_lowerCh c h.1]; exact h.1, ih h.2⟩

theorem takeWhile_digit_ws (s : List Char) (h : s.all isSpaceCh = true) :
    s.takeWhile isDigitCh = [] := by
  cases s with
  | nil => rfl
  | cons c t =>
    simp only [List.all_cons, Bool.and_eq_true] at h
    exact takeWhile_cons_neg _ _ _ (space_not_digit c h.1)

theorem dropWhile_space_ws (s : List Char) (h : s.all isSpaceCh = true) :
    s.dropWhile isSpaceCh = [] := by
  induction s with
  | nil => rfl
  | cons c t ih =>
    simp only [List.all_cons, Bool.and_eq_true] at h
    simp [List.dropWhile, h.1, ih h.2]

theorem stripCI_ws_none (lit : List Char) (hl : headNonSpace lit = true)
    (s : List Char) (hs : s.all isSpaceCh = true) :
    stripCI lit s = none := by
  cases lit with
  | nil => exact Bool.noConfusion hl
  | cons l ls =>
    cases s with
    | nil => rfl
    | cons c t =>
      simp only [List.all_cons, Bool.and_eq_true] at hs
      simp only [headNonSpace, Bool.not_eq_true'] at hl
      have hc : lowerCh c = c := ws_lowerCh c hs.1
      have hne : ¬(lowerCh c = l) := by
        rw [hc]
        intro heq
        rw [heq] at hs
        rw [hl] at hs
        exact Bool.noConfusion hs.1
      simp [stripCI, hne]

theorem searchFrom_none_of_ws {α : Type} (m : List Char → Option α)
    (hm : ∀ s, s.all isSpaceCh = true → m s = none)
    (line : List Char) (hws : line.all isSpaceCh = true) :
    searchFrom m line = none := by
  induction line with
  | nil => exact hm [] rfl
  | cons c t ih =>
    have htail : t.all isSpaceCh = true := by
      simp only [List.all_cons, Bool.and_eq_true] at hws
      exact hws.2
    simp [searchFrom, hm (c :: t) hws, ih htail]

theorem matchTqdmFullAt_ws (s : List Char) (h : s.all isSpaceCh = true) :
    matchTqdmFullAt s = none := by
  simp [matchTqdmFullAt, dropWhile_space_ws s h]

theorem matchTqdmSimpleAt_ws (s : List Char) (h : s.all isSpaceCh = true) :
    matchTqdmSimpleAt s = none := by
  simp [matchTqdmSimpleAt, dropWhile_space_ws s h]

theorem matchTqdmMidAt_ws (s : List Char) (h : s.all isSpaceCh = true) :
    matchTqdmMidAt s = none := by
  simp [matchTqdmMidAt, takeWhile_digit_ws s h]

theorem matchPctNoBarAt_ws (s : List Char) (h : s.all isSpaceCh = true) :
    matchPctNoBarAt s = none := by
  simp [matchPctNoBarAt, takeWhile_digit_ws s h]

theorem matchFracAt_ws (s : List Char) (h : s.all isSpaceCh = true) :
    matchFracAt s = none := by
  simp [matchFracAt, takeWhile_digit_ws s h]

theorem matchCompleteAt_ws (s : List Char) (h : s.all isSpaceCh = true) :
    matchCompleteAt s = none := by
  simp [matchCompleteAt, matchNumPctThen, takeWhile_digit_ws s h]

theorem matchProgressAt_ws (s : List Char) (h : s.all isSpaceCh = true) :
    matchProgressAt s = none := by
  simp [matchProgressAt, stripCI_ws_none ("progress:".data) (by decide) s h]

theorem matchStepAt_ws (s : List Char) (h : s.all isSpaceCh = true) :
    matchStepAt s = none := by
  simp [matchStepAt, stripCI_ws_none ("step".data) (by decide) s h]

theorem matchWordPctAt_ws (lit : List Char) (hl : headNonSpace lit = true)
    (s : List Char) (h : s.all isSpaceCh = true) :
    matchWordPctAt lit s = none := by
  simp [matchWordPctAt, stripCI_ws_none lit hl s h]

theorem parse_ws_none (line : List Char) (hws : line.all isSpaceCh = true) :
    parse_progress_from_output line = none := by
  have hfull := matchTqdmFullAt_ws line hws
  have hsimple := matchTqdmSimpleAt_ws line hws
  have hmid := searchFrom_none_of_ws matchTqdmMidAt matchTqdmMidAt_ws line hws
  have hpct := searchFrom_none_of_ws matchPctNoBarAt matchPctNoBarAt_ws line hws
  have hfrac := searchFrom_none_of_ws matchFracAt matchFracAt_ws line hws
  have hprog := searchFrom_none_of_ws matchProgressAt matchProgressAt_ws line hws
  have hcomp := searchFrom_none_of_ws matchCompleteAt matchCompleteAt_ws line hws
  have hstep := searchFrom_none_of_ws matchStepAt matchStepAt_ws line hws
  have hproc := searchFrom_none_of_ws (matchWordPctAt ("processing".data))
      (matchWordPctAt_ws ("processing".data) (by decide)) line hws
  have hgen := searchFrom_none_of_ws (matchWordPctAt ("generating".data))
      (matchWordPctAt_ws ("generating".data) (by decide)) line hws
  simp [parse_progress_from_output, tryTqdmFull, tryTqdmSimple, tryTqdmMid, tryPctNoBar,
    tryFrac, tryProgressMark, tryComplete, tryStep, tryProcessing, tryGenerating,
    hfull, hsimple, hmid, hpct, hfrac, hprog, hcomp, hstep, hproc, hgen, Option.orElse]

theorem containsSub_ws_false (hay : List Char) (hws : hay.all isSpaceCh = true)
    (c : Char) (kw : List Char) (hc : isSpaceCh c = false) :
    containsSub hay (c :: kw) = false := by
  induction hay with
  | nil => simp [containsSub, List.isPrefixOf]
  | cons a t ih =>
    simp only [List.all_cons, Bool.and_eq_true] at hws
    have hne : (c == a) = false := by
      simp only [beq_eq_false_iff_ne, ne_eq]
      intro heq
      rw [heq, hws.1] at hc
      exact Bool.noConfusion hc
    simp [containsSub, List.isPrefixOf, hne, ih hws.2]

theorem scanKeywords_nomatch (hay : List Char)
    (tbl : List (List Char × String × StageRange))
    (acc : Option (String × StageRange) × ℕ)
    (h : ∀ e ∈ tbl, containsSub hay e.1 = false) :
    scanKeywords hay tbl acc = acc := by
  induction tbl generalizing acc with
  | nil => rfl
  | cons e rest ih =>
    obtain ⟨kw, v⟩ := e
    obtain ⟨best, blen⟩ := acc
    have hc := h (kw, v) (List.mem_cons_self ..)
    simp only at hc
    simp only [scanKeywords, hc, Bool.false_and, Bool.false_eq_true, if_false]
    exact ih _ (fun e2 he2 => h e2 (List.mem_cons_of_mem _ he2))

theorem estimate_ws_none (line : List Char) (cp : ℚ)
    (hws : line.all isSpaceCh = true) :
    estimate_progress_from_stage line cp = none := by
  have hlower := lowerStr_ws line hws
  have hall : ∀ e ∈ stage_keywords, containsSub (lowerStr line) e.1 = false := by
    intro e he
    have htbl : stage_keywords.all (fun e2 => headNonSpace e2.1) = true := by decide
    have hhead : headNonSpace e.1 = true := List.all_eq_true.mp htbl e he
    cases hkw : e.1 with
    | nil => rw [hkw] at hhead; exact Bool.noConfusion hhead
    | cons c kw2 =>
      rw [hkw] at hhead
      simp only [headNonSpace, Bool.not_eq_true'] at hhead
      exact containsSub_ws_false _ hlower c kw2 hhead
  unfold estimate_progress_from_stage
  dsimp only
  rw [scanKeywords_nomatch _ _ _ hall]

/-- Counterexample to C8 as stated: a whitespace-only line still triggers
the elapsed-time fallback, advancing progress and the last-update stamp. -/
theorem whitespace_updates_cex :
    (update_job_progress (some ⟨0, "initializing", 0, false, none⟩) none 0
        (" \n".data) 10).progress = 5 ∧
    (update_job_progress (some ⟨0, "initializing", 0, false, none⟩) none 0
        (" \n".data) 10).last_update = 10 := by
  have hws : ((" \n".data).all isSpaceCh) = true := by decide
  have hp := parse_ws_none (" \n".data) hws
  have he := estimate_ws_none (" \n".data) 0 hws
  have hg : genStages.contains "initializing" = false := by decide
  have hl : loadStages.contains "initializing" = true := by decide
  simp only [update_job_progress, hp, he, hg, hl]
  norm_num [min_def]

/-- C8 amended: an empty or whitespace-only line yields no structured parse
and no stage match, so the job record is unchanged whenever the five-unit
quiescence interval since the last update has not yet elapsed; after that
interval the elapsed-time fallback may still advance progress. -/
theorem whitespace_no_update (st : ProgressState) (cached : Option ProgressState)
    (t now : ℚ) (line : List Char)
    (hws : line.all isSpaceCh = true)
    (hq : now - st.last_update ≤ 5) :
    update_job_progress (some st) cached t line now = st := by
  have hp := parse_ws_none line hws
  have he := estimate_ws_none line st.progress hws
  simp only [update_job_progress, hp, he]
  rw [if_neg (not_lt.mpr hq)]

/-- Witness for C8 (amended): a whitespace line inside the quiescence
interval leaves the record untouched. -/
theorem whitespace_no_update_witness :
    update_job_progress (some ⟨0, "initializing", 0, false, none⟩) none 0
        (" \n".data) 4 = ⟨0, "initializing", 0, false, none⟩ :=
  whitespace_no_update ⟨0, "initializing", 0, false, none⟩ none 0 4
    (" \n".data) (by decide) (by norm_num)

/-! ### C3 -/

theorem lazyBar_through (bar tl : List Char)
    (hbar : bar.all (fun c => !(decide (c = '|')) && !(decide (c = '\n'))) = true)
    (r : List Char × List Char) (ht : tailFrac tl = some r) :
    lazyBar (bar ++ '|' :: tl) = some r := by
  induction bar with
  | nil => simp [lazyBar, ht]
  | cons a b ih =>
    simp only [List.all_cons, Bool.and_eq_true, Bool.not_eq_true',
      decide_eq_false_iff_not] at hbar
    have h1 : ¬(a = '|') := hbar.1.1
    have h2 : ¬(a = '\n') := hbar.1.2
    have hrec := ih (by
      simp only [List.all_eq_true] at hbar ⊢
      exact hbar.2)
    simp only [List.cons_append, lazyBar]
    rw [if_neg h1, if_neg h2]
    exact hrec

theorem dropWhile_digits_then (q : Char → Bool) (d : List Char) (c : Char)
    (rest : List Char) (hd : d.all q = true) (hc : q c = false) :
    (d ++ c :: rest).dropWhile q = c :: rest := by
  rw [dropWhile_append_all q d (c :: rest) hd]
  exact dropWhile_cons_neg q c rest hc

theorem takeWhile_digits_then (q : Char → Bool) (d : List Char) (c : Char)
    (rest : List Char) (hd : d.all q = true) (hc : q c = false) :
    (d ++ c :: rest).takeWhile q = d := by
  rw [takeWhile_append_all q d (c :: rest) hd]
  rw [takeWhile_cons_neg q c rest hc, List.append_nil]

theorem all_head_not_space (d : List Char) (hd : d.all isDigitCh = true) (h0 : d ≠ []) :
    ∃ c t, d = c :: t ∧ isSpaceCh c = false := by
  cases d with
  | nil => exact absurd rfl h0
  | cons c t =>
    simp only [List.all_cons, Bool.and_eq_true] at hd
    exact ⟨c, t, rfl, digit_not_space c hd.1⟩

theorem tailFrac_canonical (sp cur tot rest : List Char)
    (hsp : sp.all isSpaceCh = true)
    (hcur : cur.all isDigitCh = true) (hcur0 : cur ≠ [])
    (htot : tot.all isDigitCh = true) (htot0 : tot ≠ [])
    (hrest : rest.takeWhile isDigitCh = []) :
    tailFrac (sp ++ cur ++ '/' :: (tot ++ rest)) = some (cur, tot) := by
  obtain ⟨c, t, hct, hcs⟩ := all_head_not_space cur hcur hcur0
  have hdrop : (sp ++ cur ++ '/' :: (tot ++ rest)).dropWhile isSpaceCh =
      cur ++ '/' :: (tot ++ rest) := by
    rw [List.append_assoc, dropWhile_append_all isSpaceCh sp _ hsp, hct]
    exact dropWhile_cons_neg isSpaceCh c _ hcs
  have htake : (cur ++ '/' :: (tot ++ rest)).takeWhile isDigitCh = cur :=
    takeWhile_digits_then isDigitCh cur '/' _ hcur (by decide)
  have hdrop2 : (cur ++ '/' :: (tot ++ rest)).dropWhile isDigitCh =
      '/' :: (tot ++ rest) :=
    dropWhile_digits_then isDigitCh cur '/' _ hcur (by decide)
  have htaketot : (tot ++ rest).takeWhile isDigitCh = tot := by
    rw [takeWhile_append_all isDigitCh tot rest htot, hrest, List.append_nil]
  have hce : cur.isEmpty = false := by
    rw [hct]; rfl
  have hte : tot.isEmpty = false := by
    cases tot with
    | nil => exact absurd rfl htot0
    | cons a b => rfl
  unfold tailFrac
  dsimp only
  rw [hdrop, htake, hdrop2, hce]
  simp only [Bool.false_eq_true, if_false]
  rw [htaketot, hte]
  simp

theorem matchTqdmFullAt_canonical (ws p bar sp cur tot rest : List Char)
    (hws : ws.all isSpaceCh = true)
    (hp : p.all isDigitCh = true) (hp0 : p ≠ [])
    (hbar : bar.all (fun c => !(decide (c = '|')) && !(decide (c = '\n'))) = true)
    (hsp : sp.all isSpaceCh = true)
    (hcur : cur.all isDigitCh = true) (hcur0 : cur ≠ [])
    (htot : tot.all isDigitCh = true) (htot0 : tot ≠ [])
    (hrest : rest.takeWhile isDigitCh = []) :
    matchTqdmFullAt
        (ws ++ p ++ '%' :: '|' :: (bar ++ '|' :: (sp ++ cur ++ '/' :: (tot ++ rest)))) =
      some (p, cur, tot) := by
  obtain ⟨c, t, hct, hcs⟩ := all_head_not_space p hp hp0
  have hdrop : (ws ++ p ++ '%' :: '|' :: (bar ++ '|' :: (sp ++ cur ++ '/' :: (tot ++ rest)))).dropWhile
      isSpaceCh = p ++ '%' :: '|' :: (bar ++ '|' :: (sp ++ cur ++ '/' :: (tot ++ rest))) := by
    rw [List.append_assoc, dropWhile_append_all isSpaceCh ws _ hws, hct]
    exact dropWhile_cons_neg isSpaceCh c _ hcs
  have htake : (p ++ '%' :: '|' :: (bar ++ '|' :: (sp ++ cur ++ '/' :: (tot ++ rest)))).takeWhile
      isDigitCh = p :=
    takeWhile_digits_then isDigitCh p '%' _ hp (by decide)
  have hdrop2 : (p ++ '%' :: '|' :: (bar ++ '|' :: (sp ++ cur ++ '/' :: (tot ++ rest)))).dropWhile
      isDigitCh = '%' :: '|' :: (bar ++ '|' :: (sp ++ cur ++ '/' :: (tot ++ rest))) :=
    dropWhile_digits_then isDigitCh p '%' _ hp (by decide)
  have hpe : p.isEmpty = false := by
    rw [hct]; rfl
  have hlz := lazyBar_through bar (sp ++ cur ++ '/' :: (tot ++ rest)) hbar (cur, tot)
    (tailFrac_canonical sp cur tot rest hsp hcur hcur0 htot htot0 hrest)
  unfold matchTqdmFullAt
  dsimp only
  rw [hdrop, htake, hdrop2, hpe]
  simp only [Bool.false_eq_true, if_false]
  rw [hlz]

/-- C3: on any line carrying a full tqdm indicator with positive total, the
structured parser returns exactly the clamped fraction current/total times
100, independently of the displayed percentage, and the resulting update is
stored with estimated set to false. -/
theorem tqdm_fraction_wins (ws p bar sp cur tot rest : List Char)
    (st : ProgressState) (cached : Option ProgressState) (t now : ℚ)
    (hws : ws.all isSpaceCh = true)
    (hp : p.all isDigitCh = true) (hp0 : p ≠ [])
    (hbar : bar.all (fun c => !(decide (c = '|')) && !(decide (c = '\n'))) = true)
    (hsp : sp.all isSpaceCh = true)
    (hcur : cur.all isDigitCh = true) (hcur0 : cur ≠ [])
    (htot : tot.all isDigitCh = true) (htot0 : tot ≠ [])
    (hrest : rest.takeWhile isDigitCh = [])
    (htpos : 0 < natV tot) :
    parse_progress_from_output
        (ws ++ p ++ '%' :: '|' :: (bar ++ '|' :: (sp ++ cur ++ '/' :: (tot ++ rest)))) =
      some (clampPct ((natV cur : ℚ) / (natV tot : ℚ) * 100)) ∧
    (update_job_progress (some st) cached t
        (ws ++ p ++ '%' :: '|' :: (bar ++ '|' :: (sp ++ cur ++ '/' :: (tot ++ rest)))) now).progress =
      clampPct ((natV cur : ℚ) / (natV tot : ℚ) * 100) ∧
    (update_job_progress (some st) cached t
        (ws ++ p ++ '%' :: '|' :: (bar ++ '|' :: (sp ++ cur ++ '/' :: (tot ++ rest)))) now).estimated =
      false := by
  have hmatch := matchTqdmFullAt_canonical ws p bar sp cur tot rest hws hp hp0 hbar
    hsp hcur hcur0 htot htot0 hrest
  have hparse : parse_progress_from_output
      (ws ++ p ++ '%' :: '|' :: (bar ++ '|' :: (sp ++ cur ++ '/' :: (tot ++ rest)))) =
      some (clampPct ((natV cur : ℚ) / (natV tot : ℚ) * 100)) := by
    unfold parse_progress_from_output tryTqdmFull
    rw [hmatch]
    simp only [Option.map_some', Option.some_orElse']
    unfold fracOrDisplay
    rw [if_pos htpos]
  refine ⟨hparse, ?_, ?_⟩
  · rw [update_of_parse_some st cached t now _ _ hparse]
  · rw [update_of_parse_some st cached t now _ _ hparse]

/-- Witness for C3: the spec example line parses to exactly 50. -/
theorem tqdm_fraction_wins_witness :
    parse_progress_from_output ("  50%|██████████   | 1/2 [..]".data) = some 50 ∧
    (update_job_progress (some ⟨10, "x", 0, true, none⟩) none 0
        ("  50%|██████████   | 1/2 [..]".data) 3).estimated = false := by
  have h := tqdm_fraction_wins ("  ".data) ("50".data) ("██████████   ".data)
      (" ".data) ("1".data) ("2".data) (" [..]".data)
      ⟨10, "x", 0, true, none⟩ none 0 3
      (by decide) (by decide) (by decide) (by decide) (by decide) (by decide)
      (by decide) (by decide) (by decide) (by decide) (by decide)
  have hline : ("  ".data) ++ ("50".data) ++ '%' :: '|' ::
      (("██████████   ".data) ++ '|' ::
        ((" ".data) ++ ("1".data) ++ '/' :: (("2".data) ++ (" [..]".data)))) =
      ("  50%|██████████   | 1/2 [..]".data) := by decide
  have hval : clampPct ((natV ("1".data) : ℚ) / (natV ("2".data) : ℚ) * 100) = 50 := by
    have h1 : natV ("1".data) = 1 := by decide
    have h2 : natV ("2".data) = 2 := by decide
    rw [h1, h2]
    simp only [clampPct]
    norm_num [min_def, max_def]
  rw [hline, hval] at h
  exact ⟨h.1, h.2.2⟩

end Mapper
